import Mathlib

/-!
Verification development for the translation/relay subsystem of
claude-relay-service.  Strings are modelled as `List Char`; the JavaScript
sources are embedded as executable Lean functions, and the spec claims are
settled as theorems about those functions.
-/

/-- The backtick character (U+0060), used by the code-block protector. -/
def tick : Char := Char.ofNat 96

/-- Whitespace characters recognised by the model of JavaScript `trim()`
(space, tab, newline, carriage return). -/
def isWs (c : Char) : Bool :=
  c = ' ' || c = '\t' || c = '\n' || c = '\r'

/-- Model of JavaScript `String.prototype.trim` over `List Char`. -/
def trimL (cs : List Char) : List Char :=
  ((cs.dropWhile isWs).reverse.dropWhile isWs).reverse

/-!  ## Sentence buffer (src/unnamed/part_000, `SentenceBuffer`)  -/

/-- The sentence-ending characters of `SentenceBuffer.sentenceEnders`:
`。 ？ ！ . ? ! \n`. -/
def isEnder (c : Char) : Bool :=
  c = '。' || c = '？' || c = '！' || c = '.' || c = '?' || c = '!' || c = '\n'

/-- The scan performed by `SentenceBuffer.add`: every prefix up to and
including a terminator becomes one sentence; the text after the last
terminator is the new buffer content.  Returns (sentences, remainder). -/
def sbScan : List Char → List (List Char) × List Char
  | [] => ([], [])
  | c :: rest =>
    if isEnder c then ([c] :: (sbScan rest).1, (sbScan rest).2)
    else
      match sbScan rest with
      | ([], r) => ([], c :: r)
      | (s :: ss, r) => ((c :: s) :: ss, r)

/-- `SentenceBuffer.add`: the buffer is `List Char`; an empty (falsy) chunk
returns no sentences and leaves the buffer untouched, otherwise the
concatenation of buffer and chunk is scanned for sentences. -/
def sbAdd (buffer : List Char) (text : List Char) : List (List Char) × List Char :=
  if text = [] then ([], buffer)
  else sbScan (buffer ++ text)

/-- Run a sequence of `add` calls from a given buffer state, collecting all
emitted sentences and the final buffer. -/
def sbRun (buffer : List Char) : List (List Char) → List (List Char) × List Char
  | [] => ([], buffer)
  | t :: ts =>
    let p := sbAdd buffer t
    let q := sbRun p.2 ts
    (p.1 ++ q.1, q.2)

/-- A sentence emitted by the buffer: nonempty and retaining its terminator
as last character. -/
def endsWithEnder (s : List Char) : Bool :=
  match s.getLast? with
  | some c => isEnder c
  | none => false

/-- Concatenation of a list of strings. -/
def concatAll : List (List Char) → List Char
  | [] => []
  | s :: ss => s ++ concatAll ss

/-!  ## Code-block protector (src/src/services/translation/codeBlockProtector.js)

`extract` replaces fenced ``` blocks (non-greedy, first pass) and single
backtick inline spans (second pass) with placeholders
`__CODE_BLOCK_<n>__` / `__INLINE_CODE_<n>__`, one shared monotonically
increasing counter; `restore` performs a literal global
split-and-join substitution for each placeholder in insertion order. -/

/-- Decimal digit characters, used to model JavaScript number-to-string
interpolation of the placeholder index. -/
def decDigit : Nat → Char
  | 0 => '0' | 1 => '1' | 2 => '2' | 3 => '3' | 4 => '4'
  | 5 => '5' | 6 => '6' | 7 => '7' | 8 => '8' | _ => '9'

/-- Fuelled helper for `decDigits`; the fuel strictly exceeds the number
being printed, and dividing by ten keeps it sufficient. -/
def decDigitsGo : Nat → Nat → List Char
  | 0, _ => []
  | fuel + 1, n =>
    if n < 10 then [decDigit n]
    else decDigitsGo fuel (n / 10) ++ [decDigit (n % 10)]

/-- Decimal representation of a natural number (JavaScript template
interpolation of the placeholder counter). -/
def decDigits (n : Nat) : List Char := decDigitsGo (n + 1) n

/-- The fixed prefix of a fenced-code placeholder. -/
def cbPre : List Char :=
  ['_', '_', 'C', 'O', 'D', 'E', '_', 'B', 'L', 'O', 'C', 'K', '_']

/-- The fixed prefix of an inline-code placeholder. -/
def icPre : List Char :=
  ['_', '_', 'I', 'N', 'L', 'I', 'N', 'E', '_', 'C', 'O', 'D', 'E', '_']

/-- `__CODE_BLOCK_<i>__` -/
def cbKey (i : Nat) : List Char := cbPre ++ decDigits i ++ ['_', '_']

/-- `__INLINE_CODE_<i>__` -/
def icKey (i : Nat) : List Char := icPre ++ decDigits i ++ ['_', '_']

/-- Find the earliest closing ``` fence: returns the content before it and
the text after it (the non-greedy `[\s\S]*?` search of `codeBlockRegex`). -/
def findTriple : List Char → Option (List Char × List Char)
  | [] => none
  | c :: rest =>
    if c = tick ∧ rest.take 2 = [tick, tick] then some ([], rest.drop 2)
    else (findTriple rest).map fun p => (c :: p.1, p.2)

/-- First pass of `extract`: find the leftmost fenced ``` block
(`/```[\\s\\S]*?```/g`).  Returns (plain prefix, fence content, text after
the closing fence); on a failed opening (no closing fence) the scan
advances one character, as the JavaScript regex engine does. -/
def findFence : List Char → Option (List Char × List Char × List Char)
  | [] => none
  | c :: rest =>
    if c = tick ∧ rest.take 2 = [tick, tick] then
      match findTriple (rest.drop 2) with
      | some (w, after) => some ([], w, after)
      | none => (findFence rest).map fun p => (c :: p.1, p.2.1, p.2.2)
    else (findFence rest).map fun p => (c :: p.1, p.2.1, p.2.2)

/-- Replacement loop of the fenced pass: repeatedly replace the leftmost
fenced block with `__CODE_BLOCK_<i>__`, continuing after the match.  The
fuel argument only bounds the number of matches; every match consumes at
least six characters, so the wrapper's fuel of `cs.length` is never
exhausted. -/
def fencedLoop : Nat → List Char → Nat → List Char × List (List Char × List Char) × Nat
  | 0, cs, i => (cs, [], i)
  | fuel + 1, cs, i =>
    match findFence cs with
    | none => (cs, [], i)
    | some (pre, w, after) =>
      let r := fencedLoop fuel after (i + 1)
      (pre ++ cbKey i ++ r.1,
       (cbKey i, [tick, tick, tick] ++ w ++ [tick, tick, tick]) :: r.2.1,
       r.2.2)

/-- The fenced pass of `CodeBlockProtector.extract`. -/
def extractFenced (cs : List Char) (i : Nat) :
    List Char × List (List Char × List Char) × Nat :=
  fencedLoop cs.length cs i

/-- Second pass of `extract`, the inline span scan (`/`[^`]+`/g`), as a
character-by-character state machine.  The third argument is `none` when
outside a span and `some acc` when a backtick has been opened and `acc`
holds the reversed non-backtick characters read since.  A span closes at
the next backtick provided at least one character was read (`[^`]+`);
an immediately following backtick re-opens at the new position, and an
unclosed span at end of input is emitted verbatim -- all exactly the
positions the JavaScript global regex scan visits. -/
def inlineGo : List Char → Nat → Option (List Char) → List Char × List (List Char × List Char)
  | [], _, none => ([], [])
  | [], _, some acc => (tick :: acc.reverse, [])
  | c :: rest, i, none =>
    if c = tick then inlineGo rest i (some [])
    else
      let r := inlineGo rest i none
      (c :: r.1, r.2)
  | c :: rest, i, some acc =>
    if c = tick then
      if acc = [] then
        let r := inlineGo rest i (some [])
        (tick :: r.1, r.2)
      else
        let r := inlineGo rest (i + 1) none
        (icKey i ++ r.1, (icKey i, tick :: (acc.reverse ++ [tick])) :: r.2)
    else inlineGo rest i (some (c :: acc))

/-- The inline pass of `CodeBlockProtector.extract`. -/
def extractInline (cs : List Char) (i : Nat) :
    List Char × List (List Char × List Char) :=
  inlineGo cs i none

/-- `CodeBlockProtector.extract`: empty input gives empty clean text and no
placeholders; otherwise the fenced pass runs first, then the inline pass on
its result with the shared counter, and the placeholder map lists fenced
pairs before inline pairs (JavaScript object insertion order). -/
def extract (t : List Char) : List Char × List (List Char × List Char) :=
  if t = [] then ([], [])
  else
    let f := extractFenced t 0
    let r := extractInline f.1 f.2.2
    (r.1, f.2.1 ++ r.2)

/-- Literal global substitution of `k` by `v` (JavaScript
`result.split(key).join(value)`): non-overlapping, left to right.  The
fuel starts at the length of the subject string and every step consumes at
least one subject character, so it is never exhausted. -/
def replGo (k v : List Char) : Nat → List Char → List Char
  | _, [] => []
  | 0, s => s
  | fuel + 1, c :: rest =>
    if k ≠ [] ∧ k.isPrefixOf (c :: rest) then
      v ++ replGo k v fuel ((c :: rest).drop k.length)
    else
      c :: replGo k v fuel rest

/-- JavaScript `s.split(k).join(v)`. -/
def replaceAllL (k v s : List Char) : List Char :=
  replGo k v s.length s

/-- The fold at the heart of `restore`: substitute each placeholder pair in
insertion order. -/
def restoreFold (s : List Char) (ps : List (List Char × List Char)) : List Char :=
  ps.foldl (fun acc kv => replaceAllL kv.1 kv.2 acc) s

/-- `CodeBlockProtector.restore`: a falsy (empty) translated text returns
the empty string; otherwise each placeholder pair is substituted in
insertion order. -/
def restore (s : List Char) (ps : List (List Char × List Char)) : List Char :=
  if s = [] then []
  else if ps = [] then s
  else restoreFold s ps

/-!  ### Properties of `replaceAllL`  -/

/-!  ### Shape of the generated placeholder keys  -/

/-- Numeric value of a digit string; left inverse of `decDigits`. -/
def decVal (cs : List Char) : Nat :=
  cs.foldl (fun a c => a * 10 + (c.toNat - 48)) 0

/-!  ### The clean text produced by the inline pass

`Rnd i s` says that `s` is an interleaving of underscore-free plain
characters and inline placeholder keys whose indices are at least `i`,
exactly the shape of the clean text `inlineGo` produces.  -/

inductive Rnd : Nat → List Char → Prop
  | nil (i : Nat) : Rnd i []
  | plain {i : Nat} {c : Char} {s : List Char} :
      c ≠ '_' → Rnd i s → Rnd i (c :: s)
  | key {i j : Nat} {s : List Char} :
      i ≤ j → Rnd (j + 1) s → Rnd i (icKey j ++ s)

/-- Invariant on the inline scanner's span accumulator. -/
def accOk : Option (List Char) → Prop
  | none => True
  | some acc => ∀ c ∈ acc, c ≠ '_'

/-- The input characters represented by the scanner state. -/
def stRepr : Option (List Char) → List Char
  | none => []
  | some acc => tick :: acc.reverse

/-- Invariant of the placeholder pairs produced by the inline pass: every
key is `__INLINE_CODE_<j>__` with `j` at least the starting counter, and
every stored value is free of underscores. -/
def PairsOK (i : Nat) (ps : List (List Char × List Char)) : Prop :=
  ∀ p ∈ ps, (∃ j, i ≤ j ∧ p.1 = icKey j) ∧ (∀ c ∈ p.2, c ≠ '_')

/-!  ### Pushing the restore fold over characters that start no key  -/

/-!  ### No spurious key occurrences in the clean text

An inline key `__INLINE_CODE_<i>__` never occurs inside a clean text built
from underscore-free plain characters and keys with other indices: every
candidate position fails within a few characters because the pattern's
underscores can only align with key underscores.  -/

/-- `icPre` without its two leading underscores. -/
def icTail : List Char :=
  ['I', 'N', 'L', 'I', 'N', 'E', '_', 'C', 'O', 'D', 'E', '_']

/-!  ### The inline pass round-trips  -/

/-!  ### The fenced pass is the identity on fence-free text  -/

/-- Whether the text contains an opening ``` fence anywhere. -/
def hasTriple : List Char → Bool
  | [] => false
  | c :: rest =>
    if c = tick ∧ rest.take 2 = [tick, tick] then true else hasTriple rest

/-!  ### `isCodeOnly` (codeBlockProtector.js lines 76-85)  -/

/-- One attempt of the placeholder-stripping regex
`/__CODE_BLOCK_\d+__|__INLINE_CODE_\d+__/` at the current position for the
alternative with fixed prefix `pre`: the prefix, then one or more digits
(greedy; a shorter digit run would be followed by a digit, never by `__`),
then `__`.  Returns the rest of the text after the match. -/
def matchKeyPat (pre cs : List Char) : Option (List Char) :=
  if pre.isPrefixOf cs then
    let rest := cs.drop pre.length
    let ds := rest.takeWhile Char.isDigit
    if ds ≠ [] ∧ (rest.drop ds.length).take 2 = ['_', '_'] then
      some ((rest.drop ds.length).drop 2)
    else none
  else none

/-- Global replacement of both placeholder shapes by the empty string
(`cleanText.replace(/__CODE_BLOCK_\d+__|__INLINE_CODE_\d+__/g, '')`),
first alternative tried first, scan advancing one character on failure.
Every match consumes at least seventeen characters, so the wrapper's fuel
of the text length is never exhausted. -/
def stripGo : Nat → List Char → List Char
  | _, [] => []
  | 0, s => s
  | fuel + 1, c :: rest =>
    match matchKeyPat cbPre (c :: rest) with
    | some r => stripGo fuel r
    | none =>
      match matchKeyPat icPre (c :: rest) with
      | some r => stripGo fuel r
      | none => c :: stripGo fuel rest

/-- Strip all placeholders from a clean text. -/
def stripPH (s : List Char) : List Char := stripGo s.length s

/-- `CodeBlockProtector.isCodeOnly`: a falsy (empty) input returns false;
otherwise the text is code-only when the clean text with all placeholders
stripped trims to the empty string. -/
def isCodeOnly (t : List Char) : Bool :=
  if t = [] then false
  else (trimL (stripPH (extract t).1)).isEmpty

/-!  ## Translation service guards
(src/src/services/translation/translationService.js, `translate`,
lines 55-69)

The early-return and validation logic of `translate` is pure; the cache
lookup and upstream HTTP call that follow are abstracted into the single
outcome `apiCall`. -/

/-- What `translate` does after its guards. -/
inductive TranslateOutcome
  | ret (text : List Char)
  | apiCall
  deriving DecidableEq

/-- The keys of `languageNames` (`{zh: 'Chinese', en: 'English'}`). -/
def supportedLang (l : String) : Bool := l = "zh" || l = "en"

/-- The interpolated message of the unsupported-pair error. -/
def unsupportedMsg (src tgt : String) : String :=
  "Unsupported language pair: " ++ src ++ " -> " ++ tgt

/-- `TranslationService.translate`, guard portion: empty or
whitespace-only text returns unchanged; then an unsupported language code
on either side throws; then equal source and target return unchanged;
otherwise the call proceeds to the cache and the translation API. -/
def svcTranslate (text : List Char) (sourceLang targetLang : String) :
    Except String TranslateOutcome :=
  if trimL text = [] then .ok (.ret text)
  else if ¬ (supportedLang sourceLang = true ∧ supportedLang targetLang = true) then
    .error (unsupportedMsg sourceLang targetLang)
  else if sourceLang = targetLang then .ok (.ret text)
  else .ok .apiCall

/-!  ## Accounts and JavaScript truthiness  -/

/-- The JavaScript values an account's `enableTranslation` field can hold
in the paths under study: a boolean, a string, or undefined/null. -/
inductive JsVal
  | bool (b : Bool)
  | str (s : String)
  | undef
  deriving DecidableEq

/-- JavaScript truthiness: `false`, `''`, `undefined`/`null` are falsy;
every other boolean or string is truthy (the string "false" is truthy). -/
def jsTruthy : JsVal → Bool
  | .bool b => b
  | .str s => s ≠ ""
  | .undef => false

/-- The account fields consumed by the translation paths. -/
structure Account where
  enableTranslation : JsVal
  deriving DecidableEq

/-!  ## Response translator (src/unnamed/part_001, `ResponseTranslator`)  -/

/-- A decoded SSE event.  `rest` stands for all payload fields the
translator never inspects (tool-use JSON fragments, usage, etc.), so that
pass-through can be stated as value identity. -/
structure SSEvent where
  type : String
  index : Option Int
  contentBlockType : Option String
  deltaType : Option String
  deltaText : Option (List Char)
  rest : String
  deriving DecidableEq

/-- Per-response translator state (`enabled`, `currentBlockType`,
`currentBlockIndex` and the sentence buffer; the logging-only counters in
`this.stats` are omitted as they never influence the emitted events). -/
structure RTState where
  enabled : Bool
  currentBlockType : Option String
  currentBlockIndex : Option Int
  buffer : List Char
  deriving DecidableEq

/-- The constructor's enablement test: strictly boolean `true` or the
exact string `"true"` (`account?.enableTranslation === true ||
account?.enableTranslation === 'true'`). -/
def rtEnabled (account : Option Account) : Bool :=
  match account with
  | some a =>
    decide (a.enableTranslation = JsVal.bool true)
      || decide (a.enableTranslation = JsVal.str "true")
  | none => false

/-- `new ResponseTranslator(account, outputStream)`. -/
def mkResponseTranslator (account : Option Account) : RTState :=
  { enabled := rtEnabled account,
    currentBlockType := none,
    currentBlockIndex := none,
    buffer := [] }

/-- `event.content_block?.type || null`: an absent or empty (falsy) block
type becomes null. -/
def blockTypeOf (e : SSEvent) : Option String :=
  match e.contentBlockType with
  | some s => if s = "" then none else some s
  | none => none

/-- Truthiness of `event.delta?.text`: present and nonempty. -/
def deltaTruthy (e : SSEvent) : Bool :=
  match e.deltaText with
  | some t => !t.isEmpty
  | none => false

/-- `_translateSentence`: protect code blocks, skip all-code sentences,
translate the clean text and restore the placeholders; a failing
translation call (`trans` returning `none`) falls back to the original
sentence.  `trans` abstracts `translationService.translate(-, 'en',
'zh')`. -/
def translateSentence (trans : List Char → Option (List Char))
    (sentence : List Char) : List Char :=
  if sentence = [] then sentence
  else
    let e := extract sentence
    if trimL e.1 = [] then sentence
    else
      match trans e.1 with
      | some translated => restore translated e.2
      | none => sentence

/-- `_emitTextDelta`: a falsy (empty) text emits nothing; otherwise one
synthetic `content_block_delta` with `delta.type = text_delta` and the
current block index. -/
def emitTextDelta (st : RTState) (text : List Char) : List SSEvent :=
  if text = [] then []
  else
    [{ type := "content_block_delta",
       index := st.currentBlockIndex,
       contentBlockType := none,
       deltaType := some "text_delta",
       deltaText := some text,
       rest := "" }]

/-- `ResponseTranslator.processEvent`: pass everything through when
disabled; otherwise dispatch on the event type, buffering text deltas into
sentences that are translated and re-emitted, and passing every other
event through unchanged.  Returns the new state and the events written to
the output stream, in order. -/
def processEvent (trans : List Char → Option (List Char)) (st : RTState)
    (e : SSEvent) : RTState × List SSEvent :=
  if st.enabled = false then (st, [e])
  else if e.type = "content_block_start" then
    ({ st with
        currentBlockType := blockTypeOf e,
        currentBlockIndex := e.index,
        buffer := [] }, [e])
  else if e.type = "content_block_delta" then
    if st.currentBlockType = some "tool_use" then (st, [e])
    else if st.currentBlockType = some "text" ∧ deltaTruthy e = true then
      let p := sbAdd st.buffer (e.deltaText.getD [])
      ({ st with buffer := p.2 },
       (p.1.map (fun s => emitTextDelta st (translateSentence trans s))).flatten)
    else (st, [e])
  else if e.type = "content_block_stop" then
    if st.currentBlockType = some "text" then
      let outs :=
        if st.buffer ≠ [] ∧ trimL st.buffer ≠ [] then
          emitTextDelta st (translateSentence trans st.buffer)
        else []
      ({ st with
          currentBlockType := none,
          currentBlockIndex := none,
          buffer := [] }, outs ++ [e])
    else
      ({ st with
          currentBlockType := none,
          currentBlockIndex := none }, [e])
  else (st, [e])

/-- Process a whole upstream event sequence, collecting the emitted
events in order. -/
def runRT (trans : List Char → Option (List Char)) (st : RTState) :
    List SSEvent → RTState × List SSEvent
  | [] => (st, [])
  | e :: es =>
    let p := processEvent trans st e
    let q := runRT trans p.1 es
    (q.1, p.2 ++ q.2)

/-- A text-delta event: `content_block_delta` carrying a nonempty
`delta.text` (the events the enabled translator consumes or synthesises;
every other event is "non-text"). -/
def isTextDeltaEvent (e : SSEvent) : Bool :=
  decide (e.type = "content_block_delta") && deltaTruthy e

/-!  ## Request translator
(src/src/services/translation/requestTranslator.js)  -/

/-- `languageDetector.containsChinese`: any character in the CJK Unified
basic range U+4E00 - U+9FA5. -/
def isChineseChar (c : Char) : Bool :=
  decide (0x4e00 ≤ c.toNat) && decide (c.toNat ≤ 0x9fa5)

def containsChinese (t : List Char) : Bool := t.any isChineseChar

/-- A content block of a multimodal message; `rest` stands for the fields
the translator never touches (image sources, tool payloads, ids). -/
structure ContentBlock where
  type : String
  text : Option (List Char)
  rest : String
  deriving DecidableEq

/-- Message content: a plain string, a block array, or an unknown shape
that is returned as-is. -/
inductive MsgContent
  | str (s : List Char)
  | blocks (bs : List ContentBlock)
  | other (tag : String)
  deriving DecidableEq

structure Message where
  role : String
  content : MsgContent
  deriving DecidableEq

/-- A request body: `messages` is `none` when absent or not an array;
`rest` stands for `model`, `stream`, `system` and every other field the
translator forwards untouched. -/
structure RequestBody where
  messages : Option (List Message)
  rest : String
  deriving DecidableEq

/-- `RequestTranslator._translateText` (zh to en): empty or
whitespace-only text, or text without Chinese characters, is returned
unchanged; otherwise code blocks are protected, all-code texts skipped,
and the clean text translated and restored; a failing translation call
returns the original text. -/
def reqTranslateText (trans : List Char → Option (List Char))
    (text : List Char) : List Char :=
  if trimL text = [] then text
  else if containsChinese text = false then text
  else
    let e := extract text
    if trimL e.1 = [] then text
    else
      match trans e.1 with
      | some tr => restore tr e.2
      | none => text

/-- `_translateContent` on one block: only blocks with `type === 'text'`
and truthy `text` are translated; every other block is kept as-is. -/
def reqTranslateBlock (trans : List Char → Option (List Char))
    (b : ContentBlock) : ContentBlock :=
  if b.type = "text" then
    match b.text with
    | some t => if t = [] then b else { b with text := some (reqTranslateText trans t) }
    | none => b
  else b

/-- `_translateContent`: strings via `_translateText`, arrays blockwise,
unknown content unchanged. -/
def reqTranslateContent (trans : List Char → Option (List Char)) :
    MsgContent → MsgContent
  | .str s => .str (reqTranslateText trans s)
  | .blocks bs => .blocks (bs.map (reqTranslateBlock trans))
  | .other tag => .other tag

/-- `RequestTranslator.translateRequest`: if the account is absent or its
`enableTranslation` is falsy, the input body is returned (identity);
likewise when `messages` is absent or not an array.  Otherwise the body is
deep-copied (identity on pure values) and every `user` message's content
is translated; other roles are untouched. -/
def translateRequest (trans : List Char → Option (List Char))
    (body : RequestBody) (account : Option Account) : RequestBody :=
  if jsTruthy ((account.map Account.enableTranslation).getD JsVal.undef) = false then
    body
  else
    match body.messages with
    | none => body
    | some msgs =>
      { body with messages := some (msgs.map (fun m =>
          if m.role = "user" then
            { m with content := reqTranslateContent trans m.content }
          else m)) }

/-- An account whose `enableTranslation` field holds the string
`"false"`. -/
def accStrFalse : Account := { enableTranslation := JsVal.str "false" }

/-!  ## Relay usage extraction
(src/src/services/openaiResponsesRelayService.js)  -/

/-- A JSON field value as the usage extractor may see it: a number or a
string (absence and null are both `Option.none`, which the extractor's
`!== undefined && !== null` test skips alike). -/
inductive JVal
  | num (n : Int)
  | str (s : String)
  deriving DecidableEq

/-- JavaScript `Number(value)` on the modelled values, `none` standing for
NaN: numbers are themselves; the empty or whitespace-only string is 0; a
(possibly negative) decimal literal parses; anything else is NaN. -/
def jsToNumber : JVal → Option Int
  | .num n => some n
  | .str s =>
    match trimL s.toList with
    | [] => some 0
    | '-' :: ds =>
      if ds ≠ [] ∧ ds.all Char.isDigit then some (-(decVal ds : Int)) else none
    | ds => if ds.all Char.isDigit then some ((decVal ds : Int)) else none

/-- One step of the candidate loop in `extractCacheCreationTokens`:
a candidate is used when it is defined, not null, not the empty string,
and its numeric conversion is not NaN. -/
def candidateNumber (v : Option JVal) : Option Int :=
  match v with
  | none => none
  | some (JVal.str "") => none
  | some x => jsToNumber x

structure UsageDetails where
  cached_tokens : Option Int
  cache_creation_input_tokens : Option JVal
  cache_creation_tokens : Option JVal
  deriving DecidableEq

def emptyDetails : UsageDetails :=
  { cached_tokens := none, cache_creation_input_tokens := none,
    cache_creation_tokens := none }

/-- The usage payload fields the relay reads.  Plain token counts are
modelled as optional integers; the cache-creation candidates keep their
JSON value shape because the extractor converts them explicitly. -/
structure Usage where
  input_tokens : Option Int
  prompt_tokens : Option Int
  output_tokens : Option Int
  completion_tokens : Option Int
  total_tokens : Option Int
  input_tokens_details : Option UsageDetails
  prompt_tokens_details : Option UsageDetails
  cache_creation_input_tokens : Option JVal
  cache_creation_tokens : Option JVal
  deriving DecidableEq

/-- `extractCacheCreationTokens` (lines 12-35): the details object is
`input_tokens_details || prompt_tokens_details || {}`; the four candidates
are tried in order and the first defined, non-null, non-empty value whose
`Number` conversion is not NaN wins; otherwise 0. -/
def extractCacheCreationTokens (u : Usage) : Int :=
  let details := (u.input_tokens_details.orElse (fun _ => u.prompt_tokens_details)).getD emptyDetails
  match candidateNumber details.cache_creation_input_tokens with
  | some n => n
  | none =>
    match candidateNumber details.cache_creation_tokens with
    | some n => n
    | none =>
      match candidateNumber u.cache_creation_input_tokens with
      | some n => n
      | none =>
        match candidateNumber u.cache_creation_tokens with
        | some n => n
        | none => 0

/-- The cache-creation count as the specification describes it, written
independently as a search over the candidate list (including the
`prompt_tokens_details` fallback the code applies). -/
def specCacheCreationTokens (u : Usage) : Int :=
  let d := (u.input_tokens_details.orElse (fun _ => u.prompt_tokens_details)).getD emptyDetails
  (([d.cache_creation_input_tokens, d.cache_creation_tokens,
     u.cache_creation_input_tokens, u.cache_creation_tokens].findSome?
       candidateNumber).getD 0)

/-- The cache-creation count as claim C8 states it: candidates drawn from
`usage.input_tokens_details` only, with no `prompt_tokens_details`
fallback. -/
def claimedCacheCreationTokens (u : Usage) : Int :=
  let d := u.input_tokens_details.getD emptyDetails
  (([d.cache_creation_input_tokens, d.cache_creation_tokens,
     u.cache_creation_input_tokens, u.cache_creation_tokens].findSome?
       candidateNumber).getD 0)

/-- JavaScript truthiness of a numeric field: 0 is falsy. -/
def truthyInt : Option Int → Option Int
  | some n => if n = 0 then none else some n
  | none => none

/-- `a || b || 0` over numeric fields. -/
def orNum (a b : Option Int) : Int :=
  ((truthyInt a).orElse (fun _ => truthyInt b)).getD 0

/-- `usageData.input_tokens_details?.cached_tokens || 0`. -/
def cacheReadTokensOf (u : Usage) : Int :=
  match u.input_tokens_details with
  | some d => (truthyInt d.cached_tokens).getD 0
  | none => 0

/-- The arguments handed to `apiKeyService.recordUsage`. -/
structure UsageRecordArgs where
  actualInputTokens : Int
  outputTokens : Int
  cacheCreateTokens : Int
  cacheReadTokens : Int
  deriving DecidableEq

/-- The usage numbers computed at end of stream
(`_handleStreamResponse`, lines 519-533). -/
def streamUsageRecord (u : Usage) : UsageRecordArgs :=
  let totalInputTokens := orNum u.input_tokens u.prompt_tokens
  let outputTokens := orNum u.output_tokens u.completion_tokens
  let cacheReadTokens := cacheReadTokensOf u
  let cacheCreateTokens := extractCacheCreationTokens u
  { actualInputTokens := max 0 (totalInputTokens - cacheReadTokens),
    outputTokens := outputTokens,
    cacheCreateTokens := cacheCreateTokens,
    cacheReadTokens := cacheReadTokens }

/-!  ## Relay 429 handling
(`handleRequest` lines 135-152 and `_handle429Error` lines 712-812)  -/

/-- The `error` object of a parsed 429 body.  `rest` stands for message,
type and code fields; `resets_in` is modelled as already numeric
(`parseInt` of an integer field is the identity). -/
structure RLErr where
  resets_in_seconds : Option Int
  resets_in : Option Int
  rest : String
  deriving DecidableEq

/-- A parsed error body (`errorData`). -/
structure ErrBody where
  error : Option RLErr
  rest : String
  deriving DecidableEq

/-- Reset-time extraction of `_handle429Error` (lines 772-785): requires
`errorData && errorData.error`; takes `resets_in_seconds` when truthy,
else `parseInt(resets_in)` when truthy, else null. -/
def extractResetsInSeconds (errorData : Option ErrBody) : Option Int :=
  match errorData with
  | none => none
  | some b =>
    match b.error with
    | none => none
    | some e =>
      (truthyInt e.resets_in_seconds).orElse (fun _ => truthyInt e.resets_in)

/-- The observable actions of the 429 path, in program order. -/
inductive RelayAction
  | markAccountRateLimited (accountId : String) (provider : String)
      (sessionHash : Option String) (resetsInSeconds : Option Int)
  | respond (status : Nat) (body : ErrBody)
  deriving DecidableEq

/-- The synthetic client body used when the upstream body did not parse
(`{error: {message, type: 'rate_limit_error', code, resets_in_seconds}}`). -/
def syntheticRateLimitBody (resets : Option Int) : ErrBody :=
  { error := some
      { resets_in_seconds := resets,
        resets_in := none,
        rest := "rate_limit_error" },
    rest := "" }

/-- The relay's 429 path on an already-parsed upstream body:
`_handle429Error` extracts the reset time and awaits exactly one
`markAccountRateLimited(accountId, 'openai-responses', sessionHash,
resetsInSeconds)` call, after which `handleRequest` sends the client a 429
whose body is the parsed `errorData` (or a synthetic rate-limit body).
The list is the trace, in program order. -/
def handle429 (accountId : String) (sessionHash : Option String)
    (errorData : Option ErrBody) : List RelayAction :=
  let resetsInSeconds := extractResetsInSeconds errorData
  let errorResponse := errorData.getD (syntheticRateLimitBody resetsInSeconds)
  [RelayAction.markAccountRateLimited accountId "openai-responses"
      sessionHash resetsInSeconds,
   RelayAction.respond 429 errorResponse]

/-- A parsed rate-limit body `{error: {resets_in_seconds, resets_in}}`. -/
def rlBody (n m : Option Int) (er br : String) : ErrBody :=
  { error := some { resets_in_seconds := n, resets_in := m, rest := er },
    rest := br }

/-!  # Properties and claim theorems  -/

theorem concatAll_append (xs ys : List (List Char)) :
    concatAll (xs ++ ys) = concatAll xs ++ concatAll ys := by
  induction xs with
  | nil => rfl
  | cons s ss ih => simp [concatAll, ih]

theorem sbScan_concat (cs : List Char) :
    concatAll (sbScan cs).1 ++ (sbScan cs).2 = cs := by
  induction cs with
  | nil => rfl
  | cons c rest ih =>
    simp only [sbScan]
    by_cases h : isEnder c = true
    · simp [h, concatAll, ih]
    · simp only [if_neg h]
      rcases hp : sbScan rest with ⟨s1, r⟩
      rw [hp] at ih
      cases s1 with
      | nil =>
        simp only [concatAll] at ih ⊢
        simpa using ih
      | cons s ss =>
        simp only [concatAll] at ih ⊢
        simp [← ih]

theorem sbScan_enders (cs : List Char) :
    (sbScan cs).1.all endsWithEnder = true := by
  induction cs with
  | nil => rfl
  | cons c rest ih =>
    simp only [sbScan]
    by_cases h : isEnder c = true
    · simp only [if_pos h, List.all_cons, Bool.and_eq_true]
      refine And.intro ?_ ih
      simp [endsWithEnder, h]
    · simp only [if_neg h]
      rcases hp : sbScan rest with ⟨s1, r⟩
      rw [hp] at ih
      cases s1 with
      | nil => rfl
      | cons s ss =>
        simp only [List.all_cons, Bool.and_eq_true] at ih ⊢
        refine And.intro ?_ ih.2
        have hs : endsWithEnder s = true := ih.1
        cases s with
        | nil => simp [endsWithEnder] at hs
        | cons x xs =>
          unfold endsWithEnder at hs ⊢
          rwa [List.getLast?_cons_cons]

theorem sbAdd_concat (buffer text : List Char) :
    concatAll (sbAdd buffer text).1 ++ (sbAdd buffer text).2
      = buffer ++ text := by
  unfold sbAdd
  by_cases h : text = []
  · simp [h, concatAll]
  · simp only [if_neg h]
    exact (sbScan_concat (buffer ++ text))

theorem sbAdd_enders (buffer text : List Char) :
    (sbAdd buffer text).1.all endsWithEnder = true := by
  unfold sbAdd
  by_cases h : text = []
  · simp [h]
  · simp only [if_neg h]
    exact sbScan_enders (buffer ++ text)

theorem sbRun_concat (buffer : List Char) (ts : List (List Char)) :
    concatAll (sbRun buffer ts).1 ++ (sbRun buffer ts).2
      = buffer ++ concatAll ts := by
  induction ts generalizing buffer with
  | nil => simp [sbRun, concatAll]
  | cons t ts ih =>
    simp only [sbRun, concatAll, concatAll_append]
    have h1 := sbAdd_concat buffer t
    have h2 := ih (sbAdd buffer t).2
    calc concatAll (sbAdd buffer t).1 ++ concatAll (sbRun (sbAdd buffer t).2 ts).1
          ++ (sbRun (sbAdd buffer t).2 ts).2
        = concatAll (sbAdd buffer t).1
            ++ (concatAll (sbRun (sbAdd buffer t).2 ts).1
            ++ (sbRun (sbAdd buffer t).2 ts).2) := by
          simp [List.append_assoc]
    _ = concatAll (sbAdd buffer t).1 ++ ((sbAdd buffer t).2 ++ concatAll ts) := by
          rw [h2]
    _ = buffer ++ (t ++ concatAll ts) := by
          rw [← List.append_assoc, h1, List.append_assoc]

theorem sbRun_enders (buffer : List Char) (ts : List (List Char)) :
    (sbRun buffer ts).1.all endsWithEnder = true := by
  induction ts generalizing buffer with
  | nil => simp [sbRun]
  | cons t ts ih =>
    simp only [sbRun, List.all_append, Bool.and_eq_true]
    exact ⟨sbAdd_enders buffer t, ih (sbAdd buffer t).2⟩

theorem decDigitsGo_fuel :
    ∀ n f1 f2, n < f1 → n < f2 → decDigitsGo f1 n = decDigitsGo f2 n := by
  intro n
  induction n using Nat.strong_induction_on with
  | _ n ih =>
    intro f1 f2 h1 h2
    match f1, f2 with
    | g1 + 1, g2 + 1 =>
      simp only [decDigitsGo]
      by_cases h : n < 10
      · simp [h]
      · simp only [if_neg h]
        have hd : n / 10 < n := Nat.div_lt_self (by omega) (by omega)
        rw [ih (n / 10) hd g1 g2 (by omega) (by omega)]

theorem decDigits_eq (n : Nat) :
    decDigits n = if n < 10 then [decDigit n]
      else decDigits (n / 10) ++ [decDigit (n % 10)] := by
  by_cases h : n < 10
  · simp [decDigits, decDigitsGo, h]
  · have hd : n / 10 < n := Nat.div_lt_self (by omega) (by omega)
    have h1 : decDigits n = decDigitsGo n (n / 10) ++ [decDigit (n % 10)] := by
      show decDigitsGo (n + 1) n = _
      rw [decDigitsGo, if_neg h]
    rw [h1, if_neg h,
      decDigitsGo_fuel (n / 10) n (n / 10 + 1) (by omega) (by omega)]
    rfl

theorem restore_eq_fold (s : List Char) (ps : List (List Char × List Char))
    (h : s ≠ []) : restore s ps = restoreFold s ps := by
  unfold restore
  rw [if_neg h]
  by_cases hp : ps = []
  · subst hp; rfl
  · rw [if_neg hp]

theorem replGo_fuel (k v : List Char) :
    ∀ n s f1 f2, s.length ≤ n → s.length ≤ f1 → s.length ≤ f2 →
      replGo k v f1 s = replGo k v f2 s := by
  intro n
  induction n using Nat.strong_induction_on with
  | _ n ih =>
    intro s f1 f2 hn h1 h2
    cases s with
    | nil =>
      cases f1 <;> cases f2 <;> rfl
    | cons c rest =>
      match f1, f2 with
      | g1 + 1, g2 + 1 =>
        simp only [replGo]
        by_cases hk : k ≠ [] ∧ k.isPrefixOf (c :: rest)
        · rw [if_pos hk, if_pos hk]
          have hkl : 1 ≤ k.length := by
            cases k with
            | nil => exact absurd rfl hk.1
            | cons a b => simp
          have hn1 : 1 ≤ n := by simp at hn; omega
          rw [ih (n - 1) (by omega) ((c :: rest).drop k.length) g1 g2
            (by simp at hn ⊢; omega) (by simp at h1 ⊢; omega) (by simp at h2 ⊢; omega)]
        · rw [if_neg hk, if_neg hk]
          have hn1 : 1 ≤ n := by simp at hn; omega
          rw [ih (n - 1) (by omega) rest g1 g2
            (by simp at hn ⊢; omega) (by simp at h1; omega) (by simp at h2; omega)]

theorem replaceAllL_nil (k v : List Char) : replaceAllL k v [] = [] := rfl

theorem replaceAllL_cons (k v : List Char) (c : Char) (rest : List Char) :
    replaceAllL k v (c :: rest) =
      if k ≠ [] ∧ k.isPrefixOf (c :: rest) then
        v ++ replaceAllL k v ((c :: rest).drop k.length)
      else
        c :: replaceAllL k v rest := by
  show replGo k v (c :: rest).length (c :: rest) = _
  simp only [List.length_cons, replGo]
  by_cases hk : k ≠ [] ∧ k.isPrefixOf (c :: rest)
  · rw [if_pos hk, if_pos hk]
    have hkl : 1 ≤ k.length := by
      cases k with
      | nil => exact absurd rfl hk.1
      | cons a b => simp
    rw [replGo_fuel k v ((c :: rest).drop k.length).length ((c :: rest).drop k.length)
      rest.length ((c :: rest).drop k.length).length (le_refl _)
      (by simp; omega) (le_refl _)]
    rfl
  · rw [if_neg hk, if_neg hk]
    rfl

/-- Stepping a single non-matching character past a global substitution:
the key's first character differs from the head. -/
theorem replaceAllL_cons_ne (k0 : Char) (k' v : List Char) (c : Char) (s : List Char)
    (h : k0 ≠ c) :
    replaceAllL (k0 :: k') v (c :: s) = c :: replaceAllL (k0 :: k') v s := by
  rw [replaceAllL_cons]
  have : ¬ ((k0 :: k') ≠ [] ∧ (k0 :: k').isPrefixOf (c :: s)) := by
    rintro ⟨-, hpre⟩
    rw [ List.isPrefixOf_iff_prefix, List.cons_prefix_cons] at hpre
    exact h hpre.1
  rw [if_neg this]

/-- Substituting a key at its own occurrence. -/
theorem replaceAllL_self (k v s : List Char) (h : k ≠ []) :
    replaceAllL k v (k ++ s) = v ++ replaceAllL k v s := by
  cases hk : k with
  | nil => exact absurd hk h
  | cons k0 k' =>
    rw [← hk]
    have hcons : k ++ s = k0 :: (k' ++ s) := by rw [hk]; rfl
    rw [hcons, replaceAllL_cons]
    have hpre : k.isPrefixOf (k0 :: (k' ++ s)) = true := by
      rw [ List.isPrefixOf_iff_prefix, ← hcons]
      exact ⟨s, rfl⟩
    rw [if_pos ⟨h, hpre⟩, ← hcons, List.drop_left]

theorem decDigits_ne_nil (n : Nat) : decDigits n ≠ [] := by
  rw [decDigits_eq]
  by_cases h : n < 10
  · simp [h]
  · simp [h]

theorem decDigit_isDigit (n : Nat) : (decDigit n).isDigit = true := by
  unfold decDigit
  split <;> decide

theorem decDigits_digits (n : Nat) : ∀ c ∈ decDigits n, c.isDigit = true := by
  induction n using Nat.strong_induction_on with
  | _ n ih =>
    rw [decDigits_eq]
    by_cases h : n < 10
    · simp only [if_pos h, List.mem_singleton]
      rintro c rfl
      exact decDigit_isDigit n
    · simp only [if_neg h]
      intro c hc
      rcases List.mem_append.mp hc with hc | hc
      · exact ih (n / 10) (Nat.div_lt_self (by omega) (by omega)) c hc
      · rcases List.mem_singleton.mp hc with rfl
        exact decDigit_isDigit (n % 10)

theorem isDigit_ne_under {c : Char} (h : c.isDigit = true) : c ≠ '_' := by
  intro hc
  subst hc
  simp [Char.isDigit] at h

theorem isDigit_ne_tick {c : Char} (h : c.isDigit = true) : c ≠ tick := by
  intro hc
  subst hc
  simp [Char.isDigit, tick] at h

theorem decVal_append_digit (cs : List Char) (c : Char) :
    decVal (cs ++ [c]) = decVal cs * 10 + (c.toNat - 48) := by
  unfold decVal
  rw [List.foldl_append]
  rfl

theorem decDigit_toNat (n : Nat) (h : n < 10) : (decDigit n).toNat - 48 = n := by
  interval_cases n <;> decide

theorem decVal_decDigits (n : Nat) : decVal (decDigits n) = n := by
  induction n using Nat.strong_induction_on with
  | _ n ih =>
    rw [decDigits_eq]
    by_cases h : n < 10
    · simp only [if_pos h]
      show 0 * 10 + ((decDigit n).toNat - 48) = n
      rw [decDigit_toNat n h]
      omega
    · simp only [if_neg h]
      rw [decVal_append_digit,
        ih (n / 10) (Nat.div_lt_self (by omega) (by omega)),
        decDigit_toNat (n % 10) (by omega)]
      omega

theorem decDigits_inj {a b : Nat} (h : decDigits a = decDigits b) : a = b := by
  have := congrArg decVal h
  rwa [decVal_decDigits, decVal_decDigits] at this

theorem icKey_cons (j : Nat) :
    icKey j = '_' :: '_' :: 'I' :: 'N' :: 'L' :: 'I' :: 'N' :: 'E' :: '_' :: 'C'
      :: 'O' :: 'D' :: 'E' :: '_' :: (decDigits j ++ ['_', '_']) := rfl

theorem Rnd_mono {i i' : Nat} {s : List Char} (h : i' ≤ i) (hr : Rnd i s) :
    Rnd i' s := by
  induction hr generalizing i' with
  | nil => exact Rnd.nil i'
  | plain hc _ ih => exact Rnd.plain hc (ih h)
  | key hij hs _ => exact Rnd.key (le_trans h hij) hs

theorem Rnd_plains {i : Nat} {u s : List Char}
    (hu : ∀ c ∈ u, c ≠ '_') (hs : Rnd i s) : Rnd i (u ++ s) := by
  induction u with
  | nil => exact hs
  | cons c u ih =>
    exact Rnd.plain (hu c (by simp)) (ih (fun d hd => hu d (by simp [hd])))

theorem tick_ne_under : tick ≠ '_' := by decide

theorem inlineGo_Rnd :
    ∀ cs i st, (∀ c ∈ cs, c ≠ '_') → accOk st → Rnd i (inlineGo cs i st).1 := by
  intro cs
  induction cs with
  | nil =>
    intro i st hcs hst
    cases st with
    | none => exact Rnd.nil i
    | some acc =>
      show Rnd i (tick :: acc.reverse)
      have : tick :: acc.reverse = (tick :: acc.reverse) ++ [] := by simp
      rw [this]
      refine Rnd_plains ?_ (Rnd.nil i)
      intro c hc
      rcases List.mem_cons.mp hc with rfl | hc
      · exact tick_ne_under
      · exact hst c (List.mem_reverse.mp hc)
  | cons c rest ih =>
    intro i st hcs hst
    have hrest : ∀ d ∈ rest, d ≠ '_' := fun d hd => hcs d (by simp [hd])
    have hc : c ≠ '_' := hcs c (by simp)
    cases st with
    | none =>
      by_cases ht : c = tick
      · simp only [inlineGo, if_pos ht]
        exact ih i (some []) hrest (by intro d hd; simp at hd)
      · simp only [inlineGo, if_neg ht]
        exact Rnd.plain hc (ih i none hrest trivial)
    | some acc =>
      by_cases ht : c = tick
      · by_cases ha : acc = []
        · simp only [inlineGo, if_pos ht, if_pos ha]
          exact Rnd.plain tick_ne_under (ih i (some []) hrest (by intro d hd; simp at hd))
        · simp only [inlineGo, if_pos ht, if_neg ha]
          exact Rnd.key (le_refl i) (ih (i + 1) none hrest trivial)
      · simp only [inlineGo, if_neg ht]
        refine ih i (some (c :: acc)) hrest ?_
        intro d hd
        rcases List.mem_cons.mp hd with rfl | hd
        · exact hc
        · exact hst d hd

theorem PairsOK_mono {i i' : Nat} {ps : List (List Char × List Char)}
    (h : i ≤ i') (hp : PairsOK i' ps) : PairsOK i ps := by
  intro p hmem
  rcases hp p hmem with ⟨⟨j, hij, hkey⟩, hval⟩
  exact ⟨⟨j, le_trans h hij, hkey⟩, hval⟩

theorem inlineGo_pairs :
    ∀ cs i st, (∀ c ∈ cs, c ≠ '_') → accOk st →
      PairsOK i (inlineGo cs i st).2 := by
  intro cs
  induction cs with
  | nil =>
    intro i st hcs hst
    cases st with
    | none => intro p hp; simp [inlineGo] at hp
    | some acc => intro p hp; simp [inlineGo] at hp
  | cons c rest ih =>
    intro i st hcs hst
    have hrest : ∀ d ∈ rest, d ≠ '_' := fun d hd => hcs d (by simp [hd])
    have hc : c ≠ '_' := hcs c (by simp)
    cases st with
    | none =>
      by_cases ht : c = tick
      · simp only [inlineGo, if_pos ht]
        exact ih i (some []) hrest (by intro d hd; simp at hd)
      · simp only [inlineGo, if_neg ht]
        exact ih i none hrest trivial
    | some acc =>
      by_cases ht : c = tick
      · by_cases ha : acc = []
        · simp only [inlineGo, if_pos ht, if_pos ha]
          exact ih i (some []) hrest (by intro d hd; simp at hd)
        · simp only [inlineGo, if_pos ht, if_neg ha]
          intro p hp
          rcases List.mem_cons.mp hp with rfl | hp
          · refine ⟨⟨i, le_refl i, rfl⟩, ?_⟩
            intro d hd
            have hd2 : d = tick ∨ d ∈ acc := by
              rcases List.mem_cons.mp hd with h1 | h1
              · exact Or.inl h1
              · rcases List.mem_append.mp h1 with h2 | h2
                · exact Or.inr (List.mem_reverse.mp h2)
                · exact Or.inl (List.mem_singleton.mp h2)
            rcases hd2 with rfl | hmem
            · exact tick_ne_under
            · exact hst d hmem
          · exact PairsOK_mono (by omega)
              (ih (i + 1) none hrest trivial) p hp
      · simp only [inlineGo, if_neg ht]
        refine ih i (some (c :: acc)) hrest ?_
        intro d hd
        rcases List.mem_cons.mp hd with rfl | hd
        · exact hc
        · exact hst d hd

theorem restoreFold_cons {ps : List (List Char × List Char)} {c : Char}
    (hc : c ≠ '_') (hps : ∀ p ∈ ps, ∃ t, p.1 = '_' :: t) :
    ∀ s, restoreFold (c :: s) ps = c :: restoreFold s ps := by
  induction ps with
  | nil => intro s; rfl
  | cons kv ps ih =>
    intro s
    rcases hps kv (by simp) with ⟨t, ht⟩
    show restoreFold (replaceAllL kv.1 kv.2 (c :: s)) ps = _
    rw [ht, replaceAllL_cons_ne '_' t kv.2 c s (fun h => hc h.symm), ← ht]
    exact ih (fun p hp => hps p (by simp [hp])) (replaceAllL kv.1 kv.2 s)

theorem restoreFold_append {ps : List (List Char × List Char)} {u : List Char}
    (hu : ∀ c ∈ u, c ≠ '_') (hps : ∀ p ∈ ps, ∃ t, p.1 = '_' :: t) :
    ∀ s, restoreFold (u ++ s) ps = u ++ restoreFold s ps := by
  induction u with
  | nil => intro s; rfl
  | cons c u ih =>
    intro s
    rw [List.cons_append, restoreFold_cons (hu c (by simp)) hps,
      ih (fun d hd => hu d (by simp [hd]))]
    rfl

theorem pairsOK_keys_under {i : Nat} {ps : List (List Char × List Char)}
    (h : PairsOK i ps) : ∀ p ∈ ps, ∃ t, p.1 = '_' :: t := by
  intro p hp
  rcases h p hp with ⟨⟨j, _, hkey⟩, -⟩
  exact ⟨_, by rw [hkey, icKey_cons]⟩

/-- Stepping a whole block `p` past a global substitution, given that the
key matches at no position inside `p` (stated via nonempty suffixes). -/
theorem replaceAllL_stepOver {k v : List Char} (hk : k ≠ []) :
    ∀ p s, (∀ q, q ≠ [] → q <:+ p → ¬ (k <+: (q ++ s))) →
      replaceAllL k v (p ++ s) = p ++ replaceAllL k v s := by
  intro p
  induction p with
  | nil => intro s _; rfl
  | cons c p' ih =>
    intro s hnp
    have h0 : ¬ (k <+: ((c :: p') ++ s)) :=
      hnp (c :: p') (by simp) (List.suffix_refl _)
    rw [List.cons_append, replaceAllL_cons]
    have hcond : ¬ (k ≠ [] ∧ k.isPrefixOf (c :: (p' ++ s))) := by
      rintro ⟨-, hp⟩
      rw [ List.isPrefixOf_iff_prefix] at hp
      exact h0 (by simpa using hp)
    rw [if_neg hcond]
    have harg : ∀ q, q ≠ [] → q <:+ p' → ¬ (k <+: (q ++ s)) := by
      intro q hq hsuf
      rcases hsuf with ⟨t, ht⟩
      exact hnp q hq ⟨c :: t, by simp [ht]⟩
    rw [ih s harg]
    simp

theorem icKey_split (i : Nat) :
    icKey i = '_' :: '_' :: (icTail ++ (decDigits i ++ ['_', '_'])) := rfl

theorem decDigits_cons (i : Nat) :
    ∃ d ds, decDigits i = d :: ds ∧ d.isDigit = true := by
  cases hd : decDigits i with
  | nil => exact absurd hd (decDigits_ne_nil i)
  | cons d ds =>
    refine ⟨d, ds, rfl, ?_⟩
    exact decDigits_digits i d (by rw [hd]; simp)

theorem suffix_append_cases {α : Type} {q a b : List α} (h : q <:+ a ++ b) :
    q <:+ b ∨ ∃ a', a' <:+ a ∧ a' ≠ [] ∧ q = a' ++ b := by
  rcases h with ⟨t, ht⟩
  rcases List.append_eq_append_iff.mp ht with ⟨a', ha1, ha2⟩ | ⟨c', hc1, hc2⟩
  · cases haa : a' with
    | nil =>
      subst haa
      left
      rw [ha2, List.nil_append]
    | cons x xs =>
      right
      exact ⟨a', ⟨t, ha1.symm⟩, by rw [haa]; simp, ha2⟩
  · left
    exact ⟨c', hc2.symm⟩

theorem suffix_eq_drop {α : Type} {q l : List α} (h : q <:+ l) :
    q = l.drop (l.length - q.length) := by
  rcases h with ⟨t, ht⟩
  have hlen : t.length + q.length = l.length := by
    rw [← ht]; simp
  have hl : l.length - q.length = t.length := by omega
  rw [hl, ← ht, List.drop_left]

/-- The pattern `INLINE_CODE_<digits>__`, or any of its nonempty tail
starts, is never a prefix of a clean text: its underscores cannot align
with the text's underscores, which occur only inside keys. -/
theorem noPrefix_icTailPat {m : Nat} {s : List Char} (hr : Rnd m s) :
    ∀ (i t : Nat), t ≤ 11 →
      ¬ ((icTail.drop t ++ (decDigits i ++ ['_', '_'])) <+: s) := by
  induction hr with
  | nil =>
    intro i t ht h
    rw [List.prefix_nil] at h
    rcases List.append_eq_nil.mp h with ⟨h1, h2⟩
    have : icTail.length - t ≠ 0 := by simp [icTail]; omega
    rw [← List.length_drop, h1] at this
    exact this rfl
  | @plain m c s hc hs ih =>
    intro i t ht h
    rcases decDigits_cons i with ⟨d, ds, hd, hdig⟩
    interval_cases t <;>
      simp only [icTail, List.drop_succ_cons, List.drop_zero, List.cons_append,
        List.nil_append, List.cons_prefix_cons, hd] at h
    · exact ih i 1 (by omega) (by simpa [icTail, hd] using h.2)
    · exact ih i 2 (by omega) (by simpa [icTail, hd] using h.2)
    · exact ih i 3 (by omega) (by simpa [icTail, hd] using h.2)
    · exact ih i 4 (by omega) (by simpa [icTail, hd] using h.2)
    · exact ih i 5 (by omega) (by simpa [icTail, hd] using h.2)
    · exact ih i 6 (by omega) (by simpa [icTail, hd] using h.2)
    · exact hc h.1.symm
    · exact ih i 8 (by omega) (by simpa [icTail, hd] using h.2)
    · exact ih i 9 (by omega) (by simpa [icTail, hd] using h.2)
    · exact ih i 10 (by omega) (by simpa [icTail, hd] using h.2)
    · exact ih i 11 (by omega) (by simpa [icTail, hd] using h.2)
    · exact hc h.1.symm
  | @key m j s hj hs ih =>
    intro i t ht h
    rcases decDigits_cons i with ⟨d, ds, hd, hdig⟩
    rw [icKey_split j] at h
    interval_cases t <;>
      simp only [icTail, List.drop_succ_cons, List.drop_zero, List.cons_append,
        List.nil_append, List.cons_prefix_cons, hd] at h
    · exact absurd h.1 (by decide)
    · exact absurd h.1 (by decide)
    · exact absurd h.1 (by decide)
    · exact absurd h.1 (by decide)
    · exact absurd h.1 (by decide)
    · exact absurd h.1 (by decide)
    · exact absurd h.2.1 (by decide)
    · exact absurd h.1 (by decide)
    · exact absurd h.1 (by decide)
    · exact absurd h.1 (by decide)
    · exact absurd h.1 (by decide)
    · exact isDigit_ne_under hdig h.2.1

/-- The pattern `_INLINE_CODE_<digits>__` is never a prefix of a clean
text. -/
theorem noPrefix_underPat {m : Nat} {s : List Char} (hr : Rnd m s) (i : Nat) :
    ¬ (('_' :: (icTail ++ (decDigits i ++ ['_', '_']))) <+: s) := by
  cases hr with
  | nil =>
    intro h
    rw [List.prefix_nil] at h
    exact absurd h (by simp)
  | @plain m c s hc hs =>
    intro h
    rw [List.cons_prefix_cons] at h
    exact hc h.1.symm
  | @key m j s hj hs =>
    intro h
    rw [icKey_split j] at h
    simp only [icTail, List.cons_append, List.nil_append,
      List.cons_prefix_cons] at h
    exact absurd h.2.1 (by decide)

/-- A nonempty digit string followed by an underscore is never a prefix of
a different digit string followed by an underscore. -/
theorem noPrefix_digits :
    ∀ (a b x y : List Char), a ≠ b →
      (∀ c ∈ a, c.isDigit = true) → (∀ c ∈ b, c.isDigit = true) →
      ¬ ((a ++ '_' :: x) <+: (b ++ '_' :: y)) := by
  intro a
  induction a with
  | nil =>
    intro b x y hne ha hb h
    cases b with
    | nil => exact hne rfl
    | cons d b' =>
      simp only [List.nil_append, List.cons_append, List.cons_prefix_cons] at h
      exact isDigit_ne_under (hb d (by simp)) h.1.symm
  | cons e a' iha =>
    intro b x y hne ha hb h
    cases b with
    | nil =>
      simp only [List.cons_append, List.nil_append, List.cons_prefix_cons] at h
      exact isDigit_ne_under (ha e (by simp)) h.1
    | cons d b' =>
      simp only [List.cons_append, List.cons_prefix_cons] at h
      rcases h with ⟨rfl, h2⟩
      have hne' : a' ≠ b' := by
        intro hh; exact hne (by rw [hh])
      exact iha b' x y hne' (fun c hc => ha c (by simp [hc]))
        (fun c hc => hb c (by simp [hc])) h2

theorem icKey_append (j : Nat) :
    icKey j = icPre ++ (decDigits j ++ ['_', '_']) := by
  rw [icKey, List.append_assoc]

/-- The key `__INLINE_CODE_<i>__` does not match at any position inside an
occurrence of the key `__INLINE_CODE_<j>__` (`i ≠ j`) followed by clean
text. -/
theorem icKey_no_match_inside {i j : Nat} (hij : i ≠ j) {m : Nat}
    {s : List Char} (hr : Rnd m s) :
    ∀ q, q ≠ [] → q <:+ icKey j → ¬ (icKey i <+: (q ++ s)) := by
  intro q hq hsuf h
  rw [icKey_append j] at hsuf
  rcases decDigits_cons j with ⟨d, ds, hd, hdig⟩
  rcases decDigits_cons i with ⟨e, es, he, hedig⟩
  rcases suffix_append_cases hsuf with hleft | ⟨a', ha_suf, ha_ne, rfl⟩
  · -- q is a suffix of `<digits j>__`
    rcases suffix_append_cases hleft with hq2 | ⟨d', hd_suf, hd_ne, rfl⟩
    · -- q is a suffix of the trailing `__`
      have hdrop := suffix_eq_drop hq2
      have hlen : q.length ≤ 2 := by
        rcases hq2 with ⟨t, ht⟩
        have := congrArg List.length ht
        simp at this
        omega
      have hlen1 : 1 ≤ q.length := by
        cases q with
        | nil => exact absurd rfl hq
        | cons _ _ => simp
      set o := (['_', '_'] : List Char).length - q.length with ho
      have ho2 : o ≤ 1 := by simp at ho; omega
      interval_cases o
      · -- q = ['_', '_']
        rw [hdrop] at h
        simp only [List.drop_zero] at h
        rw [icKey_split i] at h
        simp only [List.cons_append, List.nil_append,
          List.cons_prefix_cons] at h
        exact noPrefix_icTailPat hr i 0 (by omega) (by simpa using h.2.2)
      · -- q = ['_']
        rw [hdrop] at h
        simp only [List.drop_succ_cons, List.drop_zero] at h
        rw [icKey_split i] at h
        simp only [List.cons_append, List.nil_append,
          List.cons_prefix_cons] at h
        exact noPrefix_underPat hr i (by simpa using h.2)
    · -- q = d' ++ `__` with d' a nonempty suffix of the digits of j
      cases d' with
      | nil => exact absurd rfl hd_ne
      | cons e0 es0 =>
        have he0 : e0.isDigit = true := by
          have hmem : e0 ∈ decDigits j := hd_suf.subset (by simp)
          exact decDigits_digits j e0 hmem
        rw [icKey_split i] at h
        simp only [List.cons_append, List.cons_prefix_cons] at h
        exact isDigit_ne_under he0 h.1.symm
  · -- q = a' ++ `<digits j>__` with a' a nonempty suffix of icPre
    have hdrop := suffix_eq_drop ha_suf
    have hlen : a'.length ≤ 14 := by
      rcases ha_suf with ⟨t, ht⟩
      have := congrArg List.length ht
      simp [icPre] at this
      omega
    have hlen1 : 1 ≤ a'.length := by
      cases a' with
      | nil => exact absurd rfl ha_ne
      | cons _ _ => simp
    have hplen : (icPre : List Char).length = 14 := by decide
    set o := (icPre : List Char).length - a'.length with ho
    have ho2 : o ≤ 13 := by omega
    rw [hdrop] at h
    interval_cases o
    · -- a' = icPre : the occurrence would start exactly at the key start
      simp only [List.drop_zero] at h
      rw [icKey_append i, List.append_assoc] at h
      rw [List.prefix_append_right_inj] at h
      have hne : decDigits i ≠ decDigits j := fun hh => hij (decDigits_inj hh)
      refine noPrefix_digits (decDigits i) (decDigits j) ['_'] ('_' :: s) hne
        (decDigits_digits i) (decDigits_digits j) ?_
      simpa using h
    all_goals (
      simp only [icPre, List.drop_succ_cons, List.drop_zero] at h
      rw [icKey_split i] at h
      simp only [List.cons_append, List.nil_append, hd,
        List.cons_prefix_cons] at h)
    · exact absurd h.2.1 (by decide)
    · exact absurd h.1 (by decide)
    · exact absurd h.1 (by decide)
    · exact absurd h.1 (by decide)
    · exact absurd h.1 (by decide)
    · exact absurd h.1 (by decide)
    · exact absurd h.1 (by decide)
    · exact absurd h.2.1 (by decide)
    · exact absurd h.1 (by decide)
    · exact absurd h.1 (by decide)
    · exact absurd h.1 (by decide)
    · exact absurd h.1 (by decide)
    · exact isDigit_ne_under hdig h.2.1.symm

/-- An inline key with index `i` below every index in the clean text `s`
is not substituted anywhere: `replaceAllL` leaves `s` unchanged. -/
theorem replaceAllL_keyFree {v : List Char} :
    ∀ {m s}, Rnd m s → ∀ i, i < m → replaceAllL (icKey i) v s = s := by
  intro m s hr
  induction hr with
  | nil => intro i _; rfl
  | @plain m c s hc hs ih =>
    intro i him
    rw [icKey_split i,
      replaceAllL_cons_ne '_' _ v c s (fun hh => hc hh.symm),
      ← icKey_split i, ih i him]
  | @key m j s hj hs ih =>
    intro i him
    have hij : i ≠ j := by omega
    rw [replaceAllL_stepOver (by rw [icKey_split i]; simp) (icKey j) s
      (icKey_no_match_inside hij hs), ih i (by omega)]

theorem inlineGo_restore :
    ∀ cs i st, (∀ c ∈ cs, c ≠ '_') → accOk st →
      restoreFold (inlineGo cs i st).1 (inlineGo cs i st).2
        = stRepr st ++ cs := by
  intro cs
  induction cs with
  | nil =>
    intro i st hcs hst
    cases st with
    | none => rfl
    | some acc => simp [inlineGo, restoreFold, stRepr]
  | cons c rest ih =>
    intro i st hcs hst
    have hrest : ∀ d ∈ rest, d ≠ '_' := fun d hd => hcs d (by simp [hd])
    have hc : c ≠ '_' := hcs c (by simp)
    cases st with
    | none =>
      by_cases ht : c = tick
      · simp only [inlineGo, if_pos ht]
        rw [ih i (some []) hrest (by intro d hd; simp at hd)]
        simp [stRepr, ht]
      · simp only [inlineGo, if_neg ht]
        have hpairs := inlineGo_pairs rest i none hrest trivial
        rw [restoreFold_cons hc (pairsOK_keys_under hpairs),
          ih i none hrest trivial]
        rfl
    | some acc =>
      by_cases ht : c = tick
      · by_cases ha : acc = []
        · simp only [inlineGo, if_pos ht, if_pos ha]
          have hpairs := inlineGo_pairs rest i (some []) hrest
            (by intro d hd; simp at hd)
          rw [restoreFold_cons tick_ne_under (pairsOK_keys_under hpairs),
            ih i (some []) hrest (by intro d hd; simp at hd)]
          subst ha
          simp [stRepr, ht]
        · simp only [inlineGo, if_pos ht, if_neg ha]
          have hpairs := inlineGo_pairs rest (i + 1) none hrest trivial
          have hrnd := inlineGo_Rnd rest (i + 1) none hrest trivial
          show restoreFold
            (replaceAllL (icKey i) (tick :: (acc.reverse ++ [tick]))
              (icKey i ++ (inlineGo rest (i + 1) none).1))
            (inlineGo rest (i + 1) none).2 = _
          rw [replaceAllL_self (icKey i) (tick :: (acc.reverse ++ [tick]))
              (inlineGo rest (i + 1) none).1 (by rw [icKey_split i]; simp),
            replaceAllL_keyFree hrnd i (by omega)]
          have hvfree : ∀ d ∈ tick :: (acc.reverse ++ [tick]), d ≠ '_' := by
            intro d hd
            have hd2 : d = tick ∨ d ∈ acc := by
              rcases List.mem_cons.mp hd with h1 | h1
              · exact Or.inl h1
              · rcases List.mem_append.mp h1 with h2 | h2
                · exact Or.inr (List.mem_reverse.mp h2)
                · exact Or.inl (List.mem_singleton.mp h2)
            rcases hd2 with rfl | hmem
            · exact tick_ne_under
            · exact hst d hmem
          rw [restoreFold_append hvfree (pairsOK_keys_under hpairs),
            ih (i + 1) none hrest trivial]
          simp [stRepr, ht]
      · simp only [inlineGo, if_neg ht]
        rw [ih i (some (c :: acc)) hrest ?_]
        · simp [stRepr]
        · intro d hd
          rcases List.mem_cons.mp hd with rfl | hd
          · exact hc
          · exact hst d hd

theorem inlineGo_ne_nil :
    ∀ cs i st, (cs ≠ [] ∨ st ≠ none) → (inlineGo cs i st).1 ≠ [] := by
  intro cs
  induction cs with
  | nil =>
    intro i st h
    cases st with
    | none => rcases h with h | h <;> exact absurd rfl h
    | some acc => simp [inlineGo]
  | cons c rest ih =>
    intro i st _
    cases st with
    | none =>
      by_cases ht : c = tick
      · simp only [inlineGo, if_pos ht]
        exact ih i (some []) (Or.inr (by simp))
      · simp [inlineGo, if_neg ht]
    | some acc =>
      by_cases ht : c = tick
      · by_cases ha : acc = []
        · simp [inlineGo, if_pos ht, if_pos ha]
        · simp only [inlineGo, if_pos ht, if_neg ha]
          rw [icKey_split i]
          simp
      · simp only [inlineGo, if_neg ht]
        exact ih i (some (c :: acc)) (Or.inr (by simp))

theorem findFence_none {cs : List Char} (h : hasTriple cs = false) :
    findFence cs = none := by
  induction cs with
  | nil => rfl
  | cons c rest ih =>
    unfold hasTriple at h
    by_cases hc : c = tick ∧ rest.take 2 = [tick, tick]
    · rw [if_pos hc] at h
      exact absurd h (by simp)
    · rw [if_neg hc] at h
      unfold findFence
      rw [if_neg hc, ih h]
      rfl

theorem extractFenced_id {cs : List Char} (h : hasTriple cs = false) (i : Nat) :
    extractFenced cs i = (cs, [], i) := by
  unfold extractFenced
  cases hl : cs.length with
  | zero => rfl
  | succ n =>
    show fencedLoop (n + 1) cs i = _
    unfold fencedLoop
    rw [findFence_none h]

theorem extract_eq_of_noTriple {t : List Char} (h2 : hasTriple t = false)
    (ht : t ≠ []) :
    extract t = ((inlineGo t 0 none).1, (inlineGo t 0 none).2) := by
  unfold extract
  rw [if_neg ht]
  show ((extractInline (extractFenced t 0).1 (extractFenced t 0).2.2).1,
    (extractFenced t 0).2.1
      ++ (extractInline (extractFenced t 0).1 (extractFenced t 0).2.2).2) = _
  rw [extractFenced_id h2 0]
  rfl

/-- C2 (amended): restoring the clean text with the placeholder map is the
exact inverse of extraction for every input without underscores and without
a ``` fence.  (As originally stated, for every string, the claim is false:
an inline span that encloses a fenced block stores a value containing the
fenced placeholder, which `restore` -- iterating in insertion order -- has
already processed, and text that itself looks like a placeholder collides
with the generated keys; see the counterexample.) -/
theorem c2_extract_restore_roundtrip (t : List Char)
    (h1 : ∀ c ∈ t, c ≠ '_') (h2 : hasTriple t = false) :
    restore (extract t).1 (extract t).2 = t := by
  by_cases ht : t = []
  · subst ht; rfl
  · rw [extract_eq_of_noTriple h2 ht]
    have hne := inlineGo_ne_nil t 0 none (Or.inl ht)
    rw [restore_eq_fold _ _ hne]
    simpa [stRepr] using inlineGo_restore t 0 none h1 trivial

/-- C2 counterexample: for an input whose inline span contains a fenced
block (a backtick, then text, then a fenced ```x``` block, then text and a
closing backtick) `restore` does not invert `extract` -- the fenced
placeholder survives in the output. -/
theorem c2_counterexample :
    restore (extract ("`a ```x``` b`".toList)).1
        (extract ("`a ```x``` b`".toList)).2
      ≠ "`a ```x``` b`".toList := by decide

/-- C2 witness: a concrete underscore-free, fence-free input on which the
round-trip theorem applies. -/
theorem c2_witness :
    (∀ c ∈ "`code` text".toList, c ≠ '_')
      ∧ hasTriple "`code` text".toList = false
      ∧ restore (extract "`code` text".toList).1
          (extract "`code` text".toList).2 = "`code` text".toList :=
  ⟨by decide, by decide,
    c2_extract_restore_roundtrip _ (by decide) (by decide)⟩

theorem trimL_eq_nil_iff (cs : List Char) :
    trimL cs = [] ↔ ∀ c ∈ cs, isWs c = true := by
  constructor
  · intro h c hc
    unfold trimL at h
    rw [List.reverse_eq_nil_iff, List.dropWhile_eq_nil_iff] at h
    have hsplit := List.takeWhile_append_dropWhile (p := isWs) (l := cs)
    rw [← hsplit] at hc
    rcases List.mem_append.mp hc with hmem | hmem
    · exact List.mem_takeWhile_imp hmem
    · exact h c (List.mem_reverse.mpr hmem)
  · intro h
    unfold trimL
    have h1 : cs.dropWhile isWs = [] :=
      List.dropWhile_eq_nil_iff.mpr (fun c hc => h c hc)
    rw [h1]
    rfl

/-- C9 (amended): for every nonempty string `t`, `isCodeOnly t` is true
exactly when the clean text of `extract t`, with all placeholders
stripped, consists only of whitespace.  (For the empty string the code
returns false on the falsy-input guard although the stripped remainder is
vacuously whitespace-only, so the original unrestricted claim fails;
see the counterexample.) -/
theorem c9_isCodeOnly_iff (t : List Char) (h : t ≠ []) :
    isCodeOnly t = true ↔ ∀ c ∈ stripPH (extract t).1, isWs c = true := by
  unfold isCodeOnly
  rw [if_neg h, List.isEmpty_iff]
  exact trimL_eq_nil_iff _

/-- C9 counterexample: at the empty string `isCodeOnly` returns false even
though the stripped clean text (empty) consists only of whitespace, so the
claimed equivalence fails there. -/
theorem c9_counterexample :
    isCodeOnly [] = false
      ∧ ∀ c ∈ stripPH (extract ([] : List Char)).1, isWs c = true := by
  decide

/-- C9 witness: the round trip of the equivalence on a concrete code-only
input. -/
theorem c9_witness :
    "```x``` `y`".toList ≠ []
      ∧ (isCodeOnly "```x``` `y`".toList = true
        ↔ ∀ c ∈ stripPH (extract "```x``` `y`".toList).1, isWs c = true)
      ∧ isCodeOnly "```x``` `y`".toList = true :=
  ⟨by decide, c9_isCodeOnly_iff _ (by decide), by decide⟩

/-- C5 (amended): `translate` returns the input unchanged on empty or
whitespace-only text regardless of the language pair; it fails with the
unsupported-language error exactly when the text does not trim to empty
and a language outside {zh, en} appears; and for a supported pair with
equal source and target it returns the input unchanged.  (As originally
stated the claim fails: the unsupported-pair check runs before the
equal-language check, so equal unsupported languages throw instead of
returning the input; see the counterexample.) -/
theorem c5_translate_guards (text : List Char) (src tgt : String) :
    ((∃ msg, svcTranslate text src tgt = .error msg)
      ↔ trimL text ≠ []
          ∧ ¬ (supportedLang src = true ∧ supportedLang tgt = true))
    ∧ (trimL text = [] → svcTranslate text src tgt = .ok (.ret text))
    ∧ (src = tgt → supportedLang src = true →
        svcTranslate text src tgt = .ok (.ret text)) := by
  refine ⟨⟨?_, ?_⟩, ?_, ?_⟩
  · rintro ⟨msg, hmsg⟩
    unfold svcTranslate at hmsg
    by_cases h1 : trimL text = []
    · rw [if_pos h1] at hmsg; exact absurd hmsg (by simp)
    · rw [if_neg h1] at hmsg
      by_cases h2 : supportedLang src = true ∧ supportedLang tgt = true
      · rw [if_neg (by simpa using h2)] at hmsg
        by_cases h3 : src = tgt
        · rw [if_pos h3] at hmsg; exact absurd hmsg (by simp)
        · rw [if_neg h3] at hmsg; exact absurd hmsg (by simp)
      · exact ⟨h1, h2⟩
  · rintro ⟨h1, h2⟩
    refine ⟨unsupportedMsg src tgt, ?_⟩
    unfold svcTranslate
    rw [if_neg h1, if_pos h2]
  · intro h1
    unfold svcTranslate
    rw [if_pos h1]
  · intro h3 h2
    unfold svcTranslate
    by_cases h1 : trimL text = []
    · rw [if_pos h1]
    · rw [if_neg h1, if_neg (by subst h3; simp [h2]), if_pos h3]

/-- C5 counterexample: a nonempty text with equal but unsupported source
and target languages throws the unsupported-pair error instead of
returning the input unchanged as the claim states. -/
theorem c5_counterexample :
    svcTranslate "hi".toList "fr" "fr" ≠ Except.ok (.ret "hi".toList)
      ∧ svcTranslate "hi".toList "fr" "fr"
          = Except.error (unsupportedMsg "fr" "fr") := by
  refine ⟨?_, rfl⟩
  intro h
  rw [show svcTranslate "hi".toList "fr" "fr"
      = Except.error (unsupportedMsg "fr" "fr") from rfl] at h
  exact Except.noConfusion h

/-- C5 witness: the amended guards applied at concrete inputs. -/
theorem c5_witness :
    svcTranslate "  ".toList "fr" "de" = Except.ok (.ret "  ".toList)
      ∧ svcTranslate "hi".toList "zh" "zh" = Except.ok (.ret "hi".toList) :=
  ⟨(c5_translate_guards "  ".toList "fr" "de").2.1 (by decide),
    (c5_translate_guards "hi".toList "zh" "zh").2.2 rfl (by decide)⟩

theorem processEvent_enabled (trans : List Char → Option (List Char))
    (st : RTState) (e : SSEvent) :
    (processEvent trans st e).1.enabled = st.enabled := by
  unfold processEvent
  split_ifs <;> rfl

theorem emitTextDelta_filter (st : RTState) (x : List Char) :
    (emitTextDelta st x).filter (fun o => !isTextDeltaEvent o) = [] := by
  unfold emitTextDelta
  by_cases h : x = []
  · simp [h]
  · rw [if_neg h]
    have hx : x.isEmpty = false := by
      cases x with
      | nil => exact absurd rfl h
      | cons a b => rfl
    simp [List.filter, isTextDeltaEvent, deltaTruthy, h, hx]

theorem emit_flatten_filter (trans : List Char → Option (List Char))
    (st : RTState) (ss : List (List Char)) :
    ((ss.map (fun s => emitTextDelta st (translateSentence trans s))).flatten).filter
      (fun o => !isTextDeltaEvent o) = [] := by
  induction ss with
  | nil => rfl
  | cons s ss ih =>
    simp only [List.map_cons, List.flatten_cons, List.filter_append,
      emitTextDelta_filter, ih]
    rfl

theorem processEvent_filter (trans : List Char → Option (List Char))
    (st : RTState) (e : SSEvent) (he : st.enabled = true) :
    (processEvent trans st e).2.filter (fun o => !isTextDeltaEvent o)
      = [e].filter (fun o => !isTextDeltaEvent o) := by
  unfold processEvent
  rw [if_neg (by rw [he]; simp)]
  by_cases h1 : e.type = "content_block_start"
  · rw [if_pos h1]
  · rw [if_neg h1]
    by_cases h2 : e.type = "content_block_delta"
    · rw [if_pos h2]
      by_cases h3 : st.currentBlockType = some "tool_use"
      · rw [if_pos h3]
      · rw [if_neg h3]
        by_cases h4 : st.currentBlockType = some "text" ∧ deltaTruthy e = true
        · rw [if_pos h4]
          show ((_ : List (List SSEvent)).flatten).filter _ = _
          rw [emit_flatten_filter]
          have htd : isTextDeltaEvent e = true := by
            unfold isTextDeltaEvent
            rw [h4.2]
            simp [h2]
          simp [List.filter, htd]
        · rw [if_neg h4]
    · rw [if_neg h2]
      by_cases h5 : e.type = "content_block_stop"
      · rw [if_pos h5]
        by_cases h6 : st.currentBlockType = some "text"
        · rw [if_pos h6]
          show ((if st.buffer ≠ [] ∧ trimL st.buffer ≠ [] then
              emitTextDelta st (translateSentence trans st.buffer)
            else []) ++ [e]).filter _ = _
          rw [List.filter_append]
          by_cases h7 : st.buffer ≠ [] ∧ trimL st.buffer ≠ []
          · rw [if_pos h7, emitTextDelta_filter]
            rfl
          · rw [if_neg h7]
            rfl
        · rw [if_neg h6]
      · rw [if_neg h5]

theorem runRT_filter (trans : List Char → Option (List Char)) :
    ∀ (es : List SSEvent) (st : RTState), st.enabled = true →
      (runRT trans st es).2.filter (fun o => !isTextDeltaEvent o)
        = es.filter (fun o => !isTextDeltaEvent o) := by
  intro es
  induction es with
  | nil => intro st _; rfl
  | cons e es ih =>
    intro st hst
    show ((processEvent trans st e).2
        ++ (runRT trans (processEvent trans st e).1 es).2).filter _ = _
    rw [List.filter_append, processEvent_filter trans st e hst,
      ih _ (by rw [processEvent_enabled]; exact hst)]
    by_cases hpred : isTextDeltaEvent e = true
    · simp [List.filter_cons, hpred]
    · simp [List.filter_cons, hpred]

/-- C3: for every upstream event sequence processed by an enabled
`ResponseTranslator`, the sequence of non-text events written to the
client (tool-use deltas, block boundaries, `message_*` events, pings,
unknown types -- everything except text deltas) equals the sequence of
non-text events received, preserving both multiplicity and order. -/
theorem c3_nonText_events_preserved (trans : List Char → Option (List Char))
    (bt : Option String) (bi : Option Int) (buf : List Char)
    (es : List SSEvent) :
    (runRT trans
        { enabled := true, currentBlockType := bt,
          currentBlockIndex := bi, buffer := buf } es).2.filter
        (fun o => !isTextDeltaEvent o)
      = es.filter (fun o => !isTextDeltaEvent o) :=
  runRT_filter trans es _ rfl

theorem emitTextDelta_all (st : RTState) (x : List Char) (e : SSEvent) :
    (emitTextDelta st x).all
      (fun o => decide (o = e)
        || (decide (o.type = "content_block_delta") && deltaTruthy o)) = true := by
  unfold emitTextDelta
  by_cases h : x = []
  · simp [h]
  · rw [if_neg h]
    simp [deltaTruthy, h]

theorem emit_flatten_all (trans : List Char → Option (List Char))
    (st : RTState) (ss : List (List Char)) (e : SSEvent) :
    ((ss.map (fun s => emitTextDelta st (translateSentence trans s))).flatten).all
      (fun o => decide (o = e)
        || (decide (o.type = "content_block_delta") && deltaTruthy o)) = true := by
  induction ss with
  | nil => rfl
  | cons s ss ih =>
    simp only [List.map_cons, List.flatten_cons, List.all_append,
      Bool.and_eq_true]
    exact ⟨emitTextDelta_all st _ e, ih⟩

/-- C10: every event the response translator writes is either the incoming
event passed through unchanged or a synthetic `content_block_delta` whose
text is nonempty -- an empty translation result is silently dropped and
never emitted as an empty text delta.  In particular, a text delta whose
only sentence translates to the empty string produces no output at all. -/
theorem c10_empty_translation_dropped :
    (∀ (trans : List Char → Option (List Char)) (st : RTState) (e : SSEvent),
      (processEvent trans st e).2.all
        (fun o => decide (o = e)
          || (decide (o.type = "content_block_delta") && deltaTruthy o)) = true)
    ∧ (processEvent (fun _ => some [])
        { enabled := true, currentBlockType := some "text",
          currentBlockIndex := some 0, buffer := [] }
        { type := "content_block_delta", index := some 0,
          contentBlockType := none, deltaType := some "text_delta",
          deltaText := some "Hi.".toList, rest := "" }).2 = [] := by
  constructor
  · intro trans st e
    unfold processEvent
    by_cases h0 : st.enabled = false
    · rw [if_pos h0]; simp
    · rw [if_neg h0]
      by_cases h1 : e.type = "content_block_start"
      · rw [if_pos h1]; simp
      · rw [if_neg h1]
        by_cases h2 : e.type = "content_block_delta"
        · rw [if_pos h2]
          by_cases h3 : st.currentBlockType = some "tool_use"
          · rw [if_pos h3]; simp
          · rw [if_neg h3]
            by_cases h4 : st.currentBlockType = some "text" ∧ deltaTruthy e = true
            · rw [if_pos h4]
              exact emit_flatten_all trans st _ e
            · rw [if_neg h4]; simp
        · rw [if_neg h2]
          by_cases h5 : e.type = "content_block_stop"
          · rw [if_pos h5]
            by_cases h6 : st.currentBlockType = some "text"
            · rw [if_pos h6]
              show ((if st.buffer ≠ [] ∧ trimL st.buffer ≠ [] then
                  emitTextDelta st (translateSentence trans st.buffer)
                else []) ++ [e]).all _ = true
              rw [List.all_append]
              by_cases h7 : st.buffer ≠ [] ∧ trimL st.buffer ≠ []
              · rw [if_pos h7]
                simp only [emitTextDelta_all, Bool.true_and]
                simp
              · rw [if_neg h7]
                simp
            · rw [if_neg h6]; simp
          · rw [if_neg h5]; simp
  · decide

/-- C1: for an account with `enableTranslation = "false"` (string), the
request path treats translation as enabled -- the generic truthiness guard
of `translateRequest` does not take the disabled fast path, and a Chinese
user message is run through the translation pipeline -- while the response
path treats it as disabled: the `ResponseTranslator` constructor's strict
comparison leaves `enabled` false, so every `processEvent` call passes its
event through unchanged with untouched state. -/
theorem c1_enableTranslation_string_false :
    jsTruthy accStrFalse.enableTranslation = true
      ∧ rtEnabled (some accStrFalse) = false
      ∧ (∀ (trans : List Char → Option (List Char)) (e : SSEvent),
          processEvent trans (mkResponseTranslator (some accStrFalse)) e
            = (mkResponseTranslator (some accStrFalse), [e]))
      ∧ translateRequest (fun _ => some "T".toList)
          { messages := some [{ role := "user", content := .str "你好".toList }],
            rest := "" }
          (some accStrFalse)
        = { messages := some [{ role := "user", content := .str "T".toList }],
            rest := "" } := by
  refine ⟨rfl, rfl, ?_, by decide⟩
  intro trans e
  rfl

/-- C8 (amended): the extracted cache-creation count is the first defined,
non-empty value with a non-NaN numeric conversion among
`details.cache_creation_input_tokens`, `details.cache_creation_tokens`,
`usage.cache_creation_input_tokens`, `usage.cache_creation_tokens` -- where
`details` is `usage.input_tokens_details` falling back to
`usage.prompt_tokens_details` -- else 0; and the recorded actual input
tokens equal `max(0, inputTokens - cachedRead)`.  (The original claim
omits the `prompt_tokens_details` fallback the code applies; see the
counterexample.) -/
theorem c8_usage_extraction (u : Usage) :
    extractCacheCreationTokens u = specCacheCreationTokens u
      ∧ (streamUsageRecord u).actualInputTokens
          = max 0 (orNum u.input_tokens u.prompt_tokens - cacheReadTokensOf u) := by
  refine ⟨?_, rfl⟩
  unfold extractCacheCreationTokens specCacheCreationTokens
  cases h1 : candidateNumber ((u.input_tokens_details.orElse
      (fun _ => u.prompt_tokens_details)).getD emptyDetails).cache_creation_input_tokens
    <;> cases h2 : candidateNumber ((u.input_tokens_details.orElse
      (fun _ => u.prompt_tokens_details)).getD emptyDetails).cache_creation_tokens
    <;> cases h3 : candidateNumber u.cache_creation_input_tokens
    <;> cases h4 : candidateNumber u.cache_creation_tokens
    <;> simp [List.findSome?, h1, h2, h3, h4]

/-- C8 counterexample: a usage payload with the cache-creation count under
`prompt_tokens_details` and a different count at the top level.  The code
takes the `prompt_tokens_details` value (5); the claimed candidate order,
which never consults `prompt_tokens_details`, would yield the top-level
value (7). -/
theorem c8_counterexample :
    extractCacheCreationTokens
        { input_tokens := none, prompt_tokens := none, output_tokens := none,
          completion_tokens := none, total_tokens := none,
          input_tokens_details := none,
          prompt_tokens_details := some
            { cached_tokens := none,
              cache_creation_input_tokens := some (JVal.num 5),
              cache_creation_tokens := none },
          cache_creation_input_tokens := none,
          cache_creation_tokens := some (JVal.num 7) } = 5
      ∧ claimedCacheCreationTokens
        { input_tokens := none, prompt_tokens := none, output_tokens := none,
          completion_tokens := none, total_tokens := none,
          input_tokens_details := none,
          prompt_tokens_details := some
            { cached_tokens := none,
              cache_creation_input_tokens := some (JVal.num 5),
              cache_creation_tokens := none },
          cache_creation_input_tokens := none,
          cache_creation_tokens := some (JVal.num 7) } = 7 := by
  decide

/-- C4 (amended): for every upstream 429 whose parsed body is
`{error: {resets_in_seconds: N}}` with N nonzero, the relay performs
exactly one `markAccountRateLimited` call carrying the account id, the
`openai-responses` provider tag, the session hash and N, and that call
precedes the client's 429 response whose body carries
`resets_in_seconds: N`.  (For N = 0 the truthiness test skips the field
and the call carries null instead of N; see the counterexample.) -/
theorem c4_429_rate_limit_trace (accountId : String) (hash : Option String)
    (n : Int) (er br : String) (hn : n ≠ 0) :
    handle429 accountId hash (some (rlBody (some n) none er br))
      = [RelayAction.markAccountRateLimited accountId "openai-responses"
            hash (some n),
         RelayAction.respond 429 (rlBody (some n) none er br)] := by
  unfold handle429 extractResetsInSeconds truthyInt
  simp [rlBody, hn]

/-- C4 counterexample: with `{error: {resets_in_seconds: 0}}` the claim
says the `markAccountRateLimited` call carries N = 0, but the code's
truthiness test skips the zero and the call carries null; the client body
still carries 0. -/
theorem c4_counterexample :
    handle429 "acc" (some "h") (some (rlBody (some 0) none "" ""))
      = [RelayAction.markAccountRateLimited "acc" "openai-responses"
            (some "h") none,
         RelayAction.respond 429 (rlBody (some 0) none "" "")]
      ∧ (none : Option Int) ≠ some 0 := by
  refine ⟨rfl, by decide⟩

/-- C4 witness: the S7 scenario, `resets_in_seconds: 120`. -/
theorem c4_witness :
    (120 : Int) ≠ 0
      ∧ handle429 "acc-1" (some "h") (some (rlBody (some 120) none "" ""))
        = [RelayAction.markAccountRateLimited "acc-1" "openai-responses"
              (some "h") (some 120),
           RelayAction.respond 429 (rlBody (some 120) none "" "")] :=
  ⟨by decide, c4_429_rate_limit_trace "acc-1" (some "h") 120 "" "" (by decide)⟩

/-- C6: for every sequence of `add` calls since the last reset (empty
buffer), the concatenation of all emitted sentences followed by the final
buffer content equals the concatenation of the `add` inputs, and every
emitted sentence is nonempty and retains its terminator character. -/
theorem sentenceBuffer_conservation (ts : List (List Char)) :
    concatAll (sbRun [] ts).1 ++ (sbRun [] ts).2 = concatAll ts
      ∧ (sbRun [] ts).1.all endsWithEnder = true := by
  refine And.intro ?_ (sbRun_enders [] ts)
  simpa using sbRun_concat [] ts
